import Mathlib

/-!
Verification of the json-lineage repository (JSON to JSON Lines converter
with a Node.js adapter).

The repository ships two cooperating parts:

* the scanning engine (`jsonl_converter`, the converter binary), specified
  in spec sections 2-4 and 7-8: a single forward pass over the input bytes
  that discovers the byte span of each top-level array element and emits it
  verbatim, one record per line;
* the Node.js adapter (`BinReader` in the TypeScript adapter source), which
  spawns the converter binary as a child process and exposes its stdout as
  an asynchronous iterator of records.

The engine's source is not part of this tree, so its model below is built
from the specification's component design (Lexical Depth Tracker 4.2,
Boundary Scanner 4.3, Engine Driver 4.6, Strict policy 4.4).  The adapter
model is a direct embedding of the `BinReader` class.  Strings are
modelled as `List Char`.
-/

namespace JsonLineage

/-- JSON insignificant whitespace recognised by the scanner. -/
def isJsonWs (c : Char) : Bool :=
  c = ' ' || c = '\t' || c = '\n' || c = '\r'

/-- Error kinds of the engine, from spec section 7: `UnexpectedByte`,
`UnterminatedString`, `UnbalancedNesting`, `EmptyInput`, `IOFailure`. -/
inductive ScanErr where
  | unexpectedByte
  | unterminatedString
  | unbalancedNesting
  | emptyInput
  | ioFailure
deriving DecidableEq, Repr

/-- Modelled from the spec: the `ScanState` record of spec section 3 —
nesting depth counters for braces and brackets, an inside-string flag and
an escape-pending flag.  The converter binary that owns this state is not
in the tree; the shape follows the DATA MODEL section verbatim. -/
structure ScanState where
  depthCurly : Nat
  depthSquare : Nat
  inString : Bool
  escape : Bool
deriving DecidableEq, Repr

/-- The baseline state at which a top-level element begins and ends. -/
def baselineSt : ScanState := ⟨0, 0, false, false⟩

/-- True when the tracker is back at the element baseline: no open brace
or bracket, not inside a string, no pending escape. -/
def atBaseline (st : ScanState) : Bool :=
  st.depthCurly = 0 && st.depthSquare = 0 && !st.inString && !st.escape

/-- Modelled from the spec: the Lexical Depth Tracker of spec section 4.2,
one byte at a time.  Inside a string a pending escape consumes the byte
unconditionally; a backslash sets the escape flag; an unescaped quote
leaves the string; all other in-string bytes are inert.  Outside a string
a quote enters a string, braces and brackets move the depth counters, and
a closer below the element baseline is a structural error. -/
def trackStep (st : ScanState) (c : Char) : Except ScanErr ScanState :=
  if st.inString then
    if st.escape then .ok { st with escape := false }
    else if c = '\\' then .ok { st with escape := true }
    else if c = '"' then .ok { st with inString := false }
    else .ok st
  else
    if c = '"' then .ok { st with inString := true }
    else if c = '{' then .ok { st with depthCurly := st.depthCurly + 1 }
    else if c = '[' then .ok { st with depthSquare := st.depthSquare + 1 }
    else if c = '}' then
      if st.depthCurly = 0 then .error .unbalancedNesting
      else .ok { st with depthCurly := st.depthCurly - 1 }
    else if c = ']' then
      if st.depthSquare = 0 then .error .unbalancedNesting
      else .ok { st with depthSquare := st.depthSquare - 1 }
    else .ok st

/-- A byte that terminates a top-level element when seen at the baseline:
a separator comma, the array closer, or whitespace (spec section 4.3). -/
def isTermCh (c : Char) : Bool :=
  c = ',' || c = ']' || isJsonWs c

/-- Run the tracker over a candidate element text.  Returns the final
state when the whole text is consumed without a structural error and
without reaching an element boundary early; `none` otherwise. -/
def scanVal (st : ScanState) : List Char → Option ScanState
  | [] => some st
  | c :: cs =>
    if atBaseline st && isTermCh c then none
    else
      match trackStep st c with
      | .ok st' => scanVal st' cs
      | .error _ => none

/-- A well-formed top-level element text in the sense of the spec's
glossary (an element span, structurally balanced in isolation, with its
surrounding insignificant whitespace already stripped): nonempty, scanned
without error or early boundary, ending at the baseline. -/
def isValText (v : List Char) : Bool :=
  !v.isEmpty &&
    (match scanVal baselineSt v with
     | some st => atBaseline st
     | none => false)

/-- Modelled from the spec: the Engine Driver states of spec section 4.6.
`awaitStart` precedes the opening bracket; `expectFirst` is inside the
array before any element; `expectValue` follows a separator comma;
`inValue` carries the tracker state and the reversed bytes of the element
being scanned; `afterElem` expects a separator or the array closer. -/
inductive DState where
  | awaitStart
  | expectFirst
  | expectValue
  | inValue (st : ScanState) (acc : List Char)
  | afterElem
deriving DecidableEq, Repr

/-- After the closing bracket only trailing whitespace is permitted
(spec section 4.3 point (c)). -/
def finishScan (es : List (List Char)) (rest : List Char) :
    Except ScanErr (List (List Char)) :=
  if rest.all isJsonWs then .ok es.reverse else .error .unexpectedByte

/-- Modelled from the spec: the Strict engine loop — Boundary Scanner
driving the Depth Tracker (spec sections 4.3, 4.4, 4.6).  `es` holds the
emitted elements in reverse.  Strict policy: a comma where a value is
expected, a trailing comma, or any byte other than whitespace before the
opening bracket is a fatal `unexpectedByte`; end of input with open
nesting is `unbalancedNesting` (or `unterminatedString` inside a string);
whitespace-only input is `emptyInput`. -/
def runFrom : DState → List (List Char) → List Char → Except ScanErr (List (List Char))
  | .awaitStart, _, [] => .error .emptyInput
  | .awaitStart, es, c :: input =>
    if isJsonWs c then runFrom .awaitStart es input
    else if c = '[' then runFrom .expectFirst es input
    else .error .unexpectedByte
  | .expectFirst, _, [] => .error .unbalancedNesting
  | .expectFirst, es, c :: input =>
    if isJsonWs c then runFrom .expectFirst es input
    else if c = ']' then finishScan es input
    else if c = ',' then .error .unexpectedByte
    else
      match trackStep baselineSt c with
      | .ok st => runFrom (.inValue st [c]) es input
      | .error e => .error e
  | .expectValue, _, [] => .error .unbalancedNesting
  | .expectValue, es, c :: input =>
    if isJsonWs c then runFrom .expectValue es input
    else if c = ']' then .error .unexpectedByte
    else if c = ',' then .error .unexpectedByte
    else
      match trackStep baselineSt c with
      | .ok st => runFrom (.inValue st [c]) es input
      | .error e => .error e
  | .inValue st _, _, [] =>
    .error (if st.inString then .unterminatedString else .unbalancedNesting)
  | .inValue st acc, es, c :: input =>
    if atBaseline st && isTermCh c then
      if c = ',' then runFrom .expectValue (acc.reverse :: es) input
      else if c = ']' then finishScan (acc.reverse :: es) input
      else runFrom .afterElem (acc.reverse :: es) input
    else
      match trackStep st c with
      | .ok st' => runFrom (.inValue st' (c :: acc)) es input
      | .error e => .error e
  | .afterElem, _, [] => .error .unbalancedNesting
  | .afterElem, es, c :: input =>
    if isJsonWs c then runFrom .afterElem es input
    else if c = ',' then runFrom .expectValue es input
    else if c = ']' then finishScan es input
    else .error .unexpectedByte

/-- Modelled from the spec: one engine run in Strict mode over the whole
input, producing either the list of emitted element texts in order or the
terminal error (spec section 6, engine entry point). -/
def scanStrict (input : List Char) : Except ScanErr (List (List Char)) :=
  runFrom .awaitStart [] input

example : scanStrict ('[' :: ']' :: []) = .ok [] := by rfl

example :
    scanStrict ('[' :: '1' :: ',' :: ' ' :: '2' :: ']' :: []) =
      .ok [['1'], ['2']] := by rfl

example :
    scanStrict ('[' :: '1' :: ',' :: ']' :: []) = .error .unexpectedByte := by rfl

example : scanStrict [' ', ' '] = .error .emptyInput := by rfl

example :
    scanStrict
      ('[' :: '{' :: '"' :: 'a' :: '"' :: ':' :: '1' :: '}' :: ']' :: []) =
      .ok [['{', '"', 'a', '"', ':', '1', '}']] := by rfl

/-- One top-level element together with the insignificant whitespace that
surrounds it in the source array. -/
structure RItem where
  pre : List Char
  val : List Char
  post : List Char

/-- The bytes one element contributes to the source text. -/
def itemBody (it : RItem) : List Char := it.pre ++ it.val ++ it.post

/-- The source bytes of the second and later elements, each preceded by
its separating comma. -/
def renderTail : List RItem → List Char
  | [] => []
  | it :: its => ',' :: (itemBody it ++ renderTail its)

/-- The source bytes between the array brackets. -/
def renderItems : List RItem → List Char
  | [] => []
  | it :: its => itemBody it ++ renderTail its

/-- A complete well-formed source document: leading whitespace, the array
opener, the elements with their separators, the array closer, trailing
whitespace. -/
def renderInput (w0 : List Char) (items : List RItem) (w1 : List Char) :
    List Char :=
  w0 ++ '[' :: (renderItems items ++ ']' :: w1)

/-- Well-formedness of one rendered element: whitespace really is
whitespace and the element text is a balanced span. -/
def OkItem (it : RItem) : Prop :=
  it.pre.all isJsonWs = true ∧ isValText it.val = true ∧
    it.post.all isJsonWs = true

instance (it : RItem) : Decidable (OkItem it) := by
  unfold OkItem; infer_instance

lemma isJsonWs_comma : isJsonWs ',' = false := by decide

lemma isJsonWs_rbracket : isJsonWs ']' = false := by decide

lemma isTermCh_of_ws {c : Char} (h : isJsonWs c = true) : isTermCh c = true := by
  simp [isTermCh, h]

lemma ws_ne_comma {c : Char} (h : isJsonWs c = true) : c ≠ ',' := by
  intro he; subst he; exact absurd h (by decide)

lemma ws_ne_rbracket {c : Char} (h : isJsonWs c = true) : c ≠ ']' := by
  intro he; subst he; exact absurd h (by decide)

/-- The four scanning states that skip insignificant whitespace do not
change when fed a run of whitespace. -/
lemma runFrom_skip_ws (s : DState)
    (hs : s = .awaitStart ∨ s = .expectFirst ∨ s = .expectValue ∨
      s = .afterElem) :
    ∀ (w : List Char) (es : List (List Char)) (rest : List Char),
      w.all isJsonWs = true →
      runFrom s es (w ++ rest) = runFrom s es rest := by
  intro w
  induction w with
  | nil => intro es rest _; rfl
  | cons c w ih =>
    intro es rest hw
    simp only [List.all_cons, Bool.and_eq_true] at hw
    rcases hs with h | h | h | h <;> subst h <;>
      simp only [List.cons_append, runFrom, hw.1, if_true] <;>
      exact ih es rest hw.2

/-- Scanning an element text from inside the `inValue` state consumes it
entirely and lands in the state the tracker computes. -/
lemma runFrom_val_append :
    ∀ (v : List Char) (st st₂ : ScanState) (acc : List Char)
      (es : List (List Char)) (rest : List Char),
      scanVal st v = some st₂ →
      runFrom (.inValue st acc) es (v ++ rest) =
        runFrom (.inValue st₂ (v.reverse ++ acc)) es rest := by
  intro v
  induction v with
  | nil =>
    intro st st₂ acc es rest h
    simp only [scanVal, Option.some.injEq] at h
    subst h
    simp
  | cons c cs ih =>
    intro st st₂ acc es rest h
    simp only [scanVal] at h
    by_cases hb : (atBaseline st && isTermCh c) = true
    · simp [hb] at h
    · rw [if_neg hb] at h
      cases htr : trackStep st c with
      | error e => rw [htr] at h; simp at h
      | ok st' =>
        rw [htr] at h
        simp only [] at h
        have hstep :
            runFrom (.inValue st acc) es (c :: (cs ++ rest)) =
              runFrom (.inValue st' (c :: acc)) es (cs ++ rest) := by
          simp [runFrom, hb, htr]
        calc runFrom (.inValue st acc) es ((c :: cs) ++ rest)
            = runFrom (.inValue st' (c :: acc)) es (cs ++ rest) := by
              rw [List.cons_append, hstep]
          _ = runFrom (.inValue st₂ (cs.reverse ++ (c :: acc))) es rest :=
              ih st' st₂ (c :: acc) es rest h
          _ = runFrom (.inValue st₂ ((c :: cs).reverse ++ acc)) es rest := by
              simp

/-- Once an element is fully scanned (tracker back at the baseline), its
trailing whitespace followed by a separator or the array closer emits the
element and moves the driver on. -/
lemma runFrom_val_term :
    ∀ (post : List Char) (st : ScanState) (acc : List Char)
      (es : List (List Char)) (d : Char) (r : List Char),
      post.all isJsonWs = true → atBaseline st = true →
      (d = ',' ∨ d = ']') →
      runFrom (.inValue st acc) es (post ++ d :: r) =
        (if d = ',' then runFrom .expectValue (acc.reverse :: es) r
         else finishScan (acc.reverse :: es) r) := by
  intro post
  induction post with
  | nil =>
    intro st acc es d r _ hb hd
    rcases hd with hd | hd <;> subst hd
    · simp [runFrom, hb, isTermCh]
    · have hne : (']' : Char) ≠ ',' := by decide
      simp [runFrom, hb, isTermCh, hne]
  | cons c post ih =>
    intro st acc es d r hw hb hd
    simp only [List.all_cons, Bool.and_eq_true] at hw
    have hterm : isTermCh c = true := isTermCh_of_ws hw.1
    have h1 :
        runFrom (.inValue st acc) es (c :: (post ++ d :: r)) =
          runFrom .afterElem (acc.reverse :: es) (post ++ d :: r) := by
      simp [runFrom, hb, hterm, ws_ne_comma hw.1, ws_ne_rbracket hw.1]
    rw [List.cons_append, h1,
      runFrom_skip_ws .afterElem (by simp) post _ _ hw.2]
    rcases hd with hd | hd <;> subst hd
    · simp [runFrom, isJsonWs_comma]
    · have hne : (']' : Char) ≠ ',' := by decide
      simp [runFrom, isJsonWs_rbracket, hne]

lemma isJsonWs_lbracket : isJsonWs '[' = false := by decide

lemma isValText_elim {v : List Char} (h : isValText v = true) :
    v ≠ [] ∧ ∃ st, scanVal baselineSt v = some st ∧ atBaseline st = true := by
  unfold isValText at h
  rw [Bool.and_eq_true] at h
  obtain ⟨h1, h2⟩ := h
  refine ⟨by simpa using h1, ?_⟩
  cases hs : scanVal baselineSt v with
  | none => rw [hs] at h2; simp at h2
  | some st => rw [hs] at h2; exact ⟨st, rfl, by simpa using h2⟩

lemma scanVal_cons_elim {c : Char} {cs : List Char} {st : ScanState}
    (h : scanVal baselineSt (c :: cs) = some st) :
    isTermCh c = false ∧
      ∃ st₁, trackStep baselineSt c = .ok st₁ ∧ scanVal st₁ cs = some st := by
  have hbase : atBaseline baselineSt = true := by decide
  simp only [scanVal, hbase, Bool.true_and] at h
  by_cases ht : isTermCh c = true
  · rw [if_pos ht] at h; simp at h
  · rw [if_neg ht] at h
    refine ⟨by simpa using ht, ?_⟩
    cases htr : trackStep baselineSt c with
    | error e => rw [htr] at h; simp at h
    | ok st₁ => rw [htr] at h; exact ⟨st₁, rfl, h⟩

lemma not_term_elim {c : Char} (h : isTermCh c = false) :
    isJsonWs c = false ∧ c ≠ ',' ∧ c ≠ ']' := by
  simp only [isTermCh, Bool.or_eq_false_iff, decide_eq_false_iff_not] at h
  exact ⟨h.2, h.1.1, h.1.2⟩

/-- The states expecting a value hand the first byte of an element text to
the Depth Tracker and enter the `inValue` state. -/
lemma runFrom_start_val {s : DState}
    (hs : s = .expectFirst ∨ s = .expectValue) {c : Char}
    (hterm : isTermCh c = false) {st₁ : ScanState}
    (htr : trackStep baselineSt c = .ok st₁)
    (es : List (List Char)) (rest : List Char) :
    runFrom s es (c :: rest) = runFrom (.inValue st₁ [c]) es rest := by
  obtain ⟨hws, hc1, hc2⟩ := not_term_elim hterm
  rcases hs with h | h <;> subst h <;> simp [runFrom, hws, hc1, hc2, htr]

/-- Core of the Strict-mode guarantee: starting inside the array with a
nonempty list of well-formed rendered elements, the driver emits exactly
their element texts, in order, and accepts the closing bracket. -/
lemma runFrom_items :
    ∀ (items : List RItem), items ≠ [] →
    ∀ s : DState, (s = .expectFirst ∨ s = .expectValue) →
    ∀ (es : List (List Char)) (w1 : List Char), w1.all isJsonWs = true →
    (∀ it ∈ items, OkItem it) →
    runFrom s es (renderItems items ++ ']' :: w1) =
      .ok (es.reverse ++ items.map RItem.val) := by
  intro items
  induction items with
  | nil => intro h; exact absurd rfl h
  | cons it its ih =>
    intro _ s hs es w1 hw1 hit
    obtain ⟨hpre, hval, hpost⟩ := hit it (List.mem_cons_self it its)
    obtain ⟨hne, st, hscan, hbase⟩ := isValText_elim hval
    have hs4 : s = .awaitStart ∨ s = .expectFirst ∨ s = .expectValue ∨
        s = .afterElem := by tauto
    have e1 : renderItems (it :: its) ++ ']' :: w1 =
        it.pre ++ (it.val ++ (it.post ++ (renderTail its ++ ']' :: w1))) := by
      simp [renderItems, itemBody, List.append_assoc]
    rw [e1, runFrom_skip_ws s hs4 it.pre es _ hpre]
    cases hv : it.val with
    | nil => exact absurd hv hne
    | cons c cs =>
      rw [hv] at hscan
      obtain ⟨hterm, st₁, htr, hrest⟩ := scanVal_cons_elim hscan
      rw [List.cons_append, runFrom_start_val hs hterm htr,
        runFrom_val_append cs st₁ st [c] es _ hrest]
      cases its with
      | nil =>
        have e2 : renderTail ([] : List RItem) ++ ']' :: w1 = ']' :: w1 := by
          simp [renderTail]
        rw [e2, runFrom_val_term it.post st _ es ']' w1 hpost hbase
          (Or.inr rfl)]
        have hne2 : (']' : Char) ≠ ',' := by decide
        rw [if_neg hne2]
        unfold finishScan
        rw [if_pos hw1]
        simp [hv]
      | cons it' its' =>
        have e3 : renderTail (it' :: its') ++ ']' :: w1 =
            ',' :: (renderItems (it' :: its') ++ ']' :: w1) := by
          simp [renderTail, renderItems, List.append_assoc]
        rw [e3, runFrom_val_term it.post st _ es ',' _ hpost hbase
          (Or.inl rfl), if_pos rfl,
          ih (by simp) .expectValue (Or.inr rfl) _ w1 hw1
            (fun x hx => hit x (List.mem_cons_of_mem it hx))]
        simp [hv]

/-- Modelled from the spec: Strict-mode scan of a fully rendered
well-formed array document yields exactly the element texts, in order. -/
lemma scanStrict_render (w0 w1 : List Char) (items : List RItem)
    (hw0 : w0.all isJsonWs = true) (hw1 : w1.all isJsonWs = true)
    (hit : ∀ it ∈ items, OkItem it) :
    scanStrict (renderInput w0 items w1) = .ok (items.map RItem.val) := by
  unfold scanStrict renderInput
  rw [runFrom_skip_ws .awaitStart (by simp) w0 _ _ hw0]
  have h1 : runFrom .awaitStart [] ('[' :: (renderItems items ++ ']' :: w1)) =
      runFrom .expectFirst [] (renderItems items ++ ']' :: w1) := by
    simp [runFrom, isJsonWs_lbracket]
  rw [h1]
  cases items with
  | nil =>
    simp [renderItems, runFrom, finishScan, hw1, isJsonWs_rbracket]
  | cons it its =>
    rw [runFrom_items (it :: its) (by simp) .expectFirst (Or.inl rfl) [] w1
      hw1 hit]
    simp

/-! The Node.js adapter, embedded from the TypeScript `BinReader` class. -/

/-- Whitespace removed by JavaScript `String.prototype.trim` (the common
ASCII part). -/
def isJsWs (c : Char) : Bool :=
  c = ' ' || c = '\t' || c = '\n' || c = '\r' || c = '\x0b' || c = '\x0c'

/-- JavaScript `chunk.toString().trim()`: strip whitespace from both ends
of the chunk. -/
def jsTrim (s : List Char) : List Char :=
  ((s.dropWhile isJsWs).reverse.dropWhile isJsWs).reverse

/-- Embedding of `BinReader.generateIterator`: pull the spawned child's
stdout asynchronous iterator until it reports `done`, yielding
`value.toString().trim()` for every chunk.  The source performs no line
splitting and installs no error, close or exit listener, so the yielded
sequence is exactly the per-chunk trims of whatever the stream delivers. -/
def generateIterator (chunks : List (List Char)) : List (List Char) :=
  chunks.map jsTrim

/-- The characters of the `--messy` command-line flag. -/
def messyFlag : List Char := ['-', '-', 'm', 'e', 's', 's', 'y']

/-- Embedding of `BinReader.binArgs`: the argument array handed to the
second spawn is `[this._filePath, this._messy ? "--messy" : ""]` — note
that in Strict mode the second entry is the empty string, not absent. -/
def binArgs (filePath : List Char) (messy : Bool) : List (List Char) :=
  [filePath, if messy then messyFlag else []]

/-- One invocation of `spawn`: the binary path and its argument array. -/
structure SpawnCall where
  bin : List Char
  args : List (List Char)
deriving DecidableEq, Repr

/-- Embedding of the spawn performed inside the `BinReader` constructor:
`spawn(this._binPath, [this._filePath])` — only the file path, no mode
flag, whatever `messy` is. -/
def ctorSpawn (binPath filePath : List Char) (_messy : Bool) : SpawnCall :=
  ⟨binPath, [filePath]⟩

/-- Embedding of `BinReader.spawnChildProcess`:
`spawn(this._binPath, this.binArgs())`, used once when the generator
first runs. -/
def iterSpawn (binPath filePath : List Char) (messy : Bool) : SpawnCall :=
  ⟨binPath, binArgs filePath messy⟩

/-- Observable process effects of the adapter. -/
inductive Effect where
  | spawnProc (c : SpawnCall)
  | readOut (c : SpawnCall)
  | killProc (c : SpawnCall)
deriving DecidableEq, Repr

/-- Effect trace of constructing a `BinReader` and running its iterator:
the constructor spawns a child immediately; the generator spawns a second
child and reads that child's stdout.  No kill is ever issued and the
constructor child's stdout is never read — the source contains no such
call. -/
def binReaderTrace (binPath filePath : List Char) (messy : Bool) :
    List Effect :=
  [.spawnProc (ctorSpawn binPath filePath messy),
   .spawnProc (iterSpawn binPath filePath messy),
   .readOut (iterSpawn binPath filePath messy)]

/-- The adapter's observable state: the construction parameters and the
single iterator created in the constructor
(`this.iterator = this.generateIterator()`), here the list of records it
has still to yield.  `chunks` is the stdout of the spawned converter. -/
structure BinReader where
  binPath : List Char
  filePath : List Char
  messy : Bool
  iterator : List (List Char)

/-- Embedding of the `BinReader` constructor with the child's stdout
chunk sequence as environment input. -/
def mkBinReader (binPath filePath : List Char) (messy : Bool)
    (chunks : List (List Char)) : BinReader :=
  ⟨binPath, filePath, messy, generateIterator chunks⟩

/-- Embedding of `BinReader.next`: delegate to the stored iterator,
returning its next record (or `none` when exhausted) and the advanced
reader. -/
def BinReader.next (r : BinReader) : Option (List Char) × BinReader :=
  match r.iterator with
  | [] => (none, r)
  | v :: vs => (some v, { r with iterator := vs })

/-- Embedding of the `Symbol.asyncIterator` method: `return this`. -/
def BinReader.asyncIter (r : BinReader) : BinReader := r

/-- Pull at most `n` records by repeated `next()` calls. -/
def pullAllAux : Nat → BinReader → List (List Char)
  | 0, _ => []
  | n + 1, r =>
    match r.next with
    | (none, _) => []
    | (some v, r') => v :: pullAllAux n r'

/-- The synchronous-style pull interface: await `next()` until done. -/
def pullAll (r : BinReader) : List (List Char) :=
  pullAllAux r.iterator.length r

/-- The `for await` interface: obtain the iterator object through
`Symbol.asyncIterator`, then pull it with `next()` until done. -/
def forAwaitAll (r : BinReader) : List (List Char) :=
  pullAll r.asyncIter

/-- The reader state after `n` calls to `next()`. -/
def afterPulls : Nat → BinReader → BinReader
  | 0, r => r
  | n + 1, r => afterPulls n (r.next).2

/-- Embedding of one full adapter iteration as a function of the child's
stdout chunks and its exit status: `generateIterator` stops when the
stdout stream ends and consults nothing else — the source installs no
error or exit listener — so the exit status does not occur in the body. -/
def adapterRun (chunks : List (List Char)) (_exitCode : Nat) :
    List (List Char) :=
  generateIterator chunks

lemma pullAllAux_take :
    ∀ (n : Nat) (r : BinReader), pullAllAux n r = r.iterator.take n := by
  intro n
  induction n with
  | zero => intro r; simp [pullAllAux]
  | succ n ih =>
    intro r
    cases hr : r.iterator with
    | nil => simp [pullAllAux, BinReader.next, hr]
    | cons v vs =>
      simp only [pullAllAux, BinReader.next, hr]
      rw [ih]
      simp

lemma afterPulls_iter :
    ∀ (n : Nat) (r : BinReader),
      (afterPulls n r).iterator = r.iterator.drop n := by
  intro n
  induction n with
  | zero => intro r; rfl
  | succ n ih =>
    intro r
    cases hr : r.iterator with
    | nil =>
      have h2 : (r.next).2 = r := by simp [BinReader.next, hr]
      simp [afterPulls, h2, ih, hr]
    | cons v vs =>
      have h2 : (r.next).2 = { r with iterator := vs } := by
        simp [BinReader.next, hr]
      simp [afterPulls, h2, ih, hr]

lemma dropWhile_head_not {p : Char → Bool} :
    ∀ (l : List Char) (c : Char), (l.dropWhile p).head? = some c →
      p c = false := by
  intro l
  induction l with
  | nil => intro c h; simp [List.dropWhile] at h
  | cons a l ih =>
    intro c h
    rw [List.dropWhile_cons] at h
    by_cases hp : p a = true
    · rw [if_pos hp] at h; exact ih c h
    · rw [if_neg hp] at h
      simp only [List.head?_cons, Option.some.injEq] at h
      subst h
      simpa using hp

lemma getLast?_dropWhile {p : Char → Bool} :
    ∀ l : List Char,
      l.dropWhile p = [] ∨ (l.dropWhile p).getLast? = l.getLast? := by
  intro l
  induction l with
  | nil => left; rfl
  | cons a l ih =>
    rw [List.dropWhile_cons]
    by_cases hp : p a = true
    · rw [if_pos hp]
      cases l with
      | nil => left; rfl
      | cons b l' =>
        rcases ih with h | h
        · left; exact h
        · right; rw [h, List.getLast?_cons_cons]
    · rw [if_neg hp]; right; rfl

/-- A trimmed record has no whitespace at either end. -/
lemma jsTrim_no_edge_ws (s : List Char) :
    (∀ c, (jsTrim s).head? = some c → isJsWs c = false) ∧
    (∀ c, (jsTrim s).getLast? = some c → isJsWs c = false) := by
  constructor
  · intro c hc
    unfold jsTrim at hc
    rw [List.head?_reverse] at hc
    rcases getLast?_dropWhile ((s.dropWhile isJsWs).reverse) with h | h
    · rw [h] at hc; simp at hc
    · rw [h, List.getLast?_reverse] at hc
      exact dropWhile_head_not s c hc
  · intro c hc
    unfold jsTrim at hc
    rw [List.getLast?_reverse] at hc
    exact dropWhile_head_not _ c hc

/-! Round-trip reconstruction of an emitted record sequence. -/

/-- Second and later records of the reconstruction, each preceded by a
separating comma. -/
def joinTail : List (List Char) → List Char
  | [] => []
  | v :: vs => ',' :: (v ++ joinTail vs)

/-- The emitted records joined with single separating commas. -/
def joinComma : List (List Char) → List Char
  | [] => []
  | v :: vs => v ++ joinTail vs

/-- The reconstruction of the spec's round-trip property: the emitted
records joined with `,` and wrapped in `[` and `]`. -/
def roundTrip (vs : List (List Char)) : List Char :=
  '[' :: (joinComma vs ++ [']'])

lemma renderTail_trivial :
    ∀ vs : List (List Char),
      renderTail (vs.map fun v => (⟨[], v, []⟩ : RItem)) = joinTail vs := by
  intro vs
  induction vs with
  | nil => rfl
  | cons v vs ih => simp [renderTail, joinTail, itemBody, ih]

lemma renderItems_trivial (vs : List (List Char)) :
    renderItems (vs.map fun v => (⟨[], v, []⟩ : RItem)) = joinComma vs := by
  cases vs with
  | nil => rfl
  | cons v vs => simp [renderItems, joinComma, itemBody, renderTail_trivial]

lemma roundTrip_eq_render (vs : List (List Char)) :
    roundTrip vs =
      renderInput [] (vs.map fun v => (⟨[], v, []⟩ : RItem)) [] := by
  simp [roundTrip, renderInput, renderItems_trivial]

/-! Concrete witness data. -/

/-- A JSON object with interior whitespace: the bytes of `{"a": 1}`. -/
def witVal1 : List Char := ['{', '"', 'a', '"', ':', ' ', '1', '}']

/-- A JSON string containing a comma, a bracket and an escaped quote. -/
def witVal2 : List Char := ['"', 'x', ',', ']', '\\', '"', 'y', '"']

/-- A nested JSON array with interior whitespace: the bytes of `[1, 2]`. -/
def witVal3 : List Char := ['[', '1', ',', ' ', '2', ']']

/-- Three elements with assorted surrounding whitespace. -/
def witItems : List RItem :=
  [⟨[], witVal1, [' ']⟩, ⟨[' '], witVal2, []⟩, ⟨['\n'], witVal3, []⟩]

/-! The claims. -/

/-- C1: for every well-formed JSON array of `N` top-level values —
arbitrary surrounding whitespace, `[`, the `N` balanced element texts
separated by single commas, `]`, trailing whitespace — a Strict run emits
exactly `N` records, and each record is byte-for-byte the corresponding
source element text: only the surrounding insignificant whitespace is
discarded, and nothing inside a value (field order, number formatting,
interior whitespace) is altered, because the emitted list is literally
the list of source element texts. -/
theorem c1_strict_verbatim (w0 w1 : List Char) (items : List RItem)
    (hw0 : w0.all isJsonWs = true) (hw1 : w1.all isJsonWs = true)
    (hit : ∀ it ∈ items, OkItem it) :
    scanStrict (renderInput w0 items w1) = .ok (items.map RItem.val) ∧
      (items.map RItem.val).length = items.length := by
  exact ⟨scanStrict_render w0 w1 items hw0 hw1 hit, by simp⟩

/-- Witness for C1 at a concrete three-element document. -/
theorem c1_witness :
    scanStrict (renderInput [' '] witItems ['\n']) =
      .ok [witVal1, witVal2, witVal3] := by
  have h := c1_strict_verbatim [' '] ['\n'] witItems (by decide) (by decide)
    (by decide)
  exact h.1.trans (by rfl)

/-- C2: scanning the reconstruction of the emitted records (joined with a
single comma and wrapped in `[` and `]`) gives exactly the same scan
result as the original well-formed document: both runs produce the
identical byte-for-byte record list, so the reconstruction is
structurally equivalent to the original with field order and interior
whitespace preserved. -/
theorem c2_roundtrip (w0 w1 : List Char) (items : List RItem)
    (hw0 : w0.all isJsonWs = true) (hw1 : w1.all isJsonWs = true)
    (hit : ∀ it ∈ items, OkItem it) :
    ∀ vs, scanStrict (renderInput w0 items w1) = .ok vs →
      scanStrict (roundTrip vs) = scanStrict (renderInput w0 items w1) := by
  intro vs hvs
  have hr := scanStrict_render w0 w1 items hw0 hw1 hit
  rw [hr] at hvs
  injection hvs with hvs
  subst hvs
  have hit2 : ∀ x ∈ (items.map RItem.val).map
      (fun v => (⟨[], v, []⟩ : RItem)), OkItem x := by
    intro x hx
    simp only [List.mem_map] at hx
    obtain ⟨v, ⟨it, hin, rfl⟩, rfl⟩ := hx
    exact ⟨rfl, (hit it hin).2.1, rfl⟩
  rw [roundTrip_eq_render, hr, scanStrict_render [] [] _ rfl rfl hit2]
  simp [Function.comp]

/-- Two elements with surrounding whitespace for the round-trip witness. -/
def witItems2 : List RItem := [⟨[' '], witVal1, []⟩, ⟨[], witVal3, [' ']⟩]

/-- Witness for C2: reconstructing the two records emitted from a
concrete document scans to the same result as the document itself. -/
theorem c2_witness :
    scanStrict (roundTrip [witVal1, witVal3]) =
      scanStrict (renderInput [] witItems2 []) := by
  exact c2_roundtrip [] [] witItems2 rfl rfl (by decide) [witVal1, witVal3]
    (by rfl)

/-- C3: inside a string literal the Depth Tracker never changes a depth
counter on any byte; with the escape-pending flag set the next byte is
consumed unconditionally as an escaped character — the flag clears and
the tracker stays inside the string, so an escaped quote or escaped
backslash can never close the string or fake structure — and with the
flag clear any byte other than the unescaped quote keeps the tracker
inside the string. -/
theorem c3_escape_handling (st : ScanState) (c : Char)
    (hin : st.inString = true) :
    (∃ st', trackStep st c = .ok st' ∧
        st'.depthCurly = st.depthCurly ∧ st'.depthSquare = st.depthSquare) ∧
    (st.escape = true → trackStep st c = .ok { st with escape := false }) ∧
    (st.escape = false → c ≠ '"' →
      ∃ st', trackStep st c = .ok st' ∧ st'.inString = true) := by
  refine ⟨?_, ?_, ?_⟩
  · unfold trackStep
    rw [if_pos hin]
    split_ifs <;> exact ⟨_, rfl, rfl, rfl⟩
  · intro he
    unfold trackStep
    rw [if_pos hin, if_pos he]
  · intro he hc
    unfold trackStep
    rw [if_pos hin, if_neg (by simp [he])]
    by_cases hb : c = '\\'
    · rw [if_pos hb]; exact ⟨_, rfl, hin⟩
    · rw [if_neg hb, if_neg hc]; exact ⟨_, rfl, hin⟩

/-- Witness for C3: with escape pending at nesting depth (1, 2), a quote
byte is consumed as an escaped character — depths unchanged, still inside
the string, escape flag cleared. -/
theorem c3_witness :
    trackStep ⟨1, 2, true, true⟩ '"' = .ok ⟨1, 2, true, false⟩ := by
  exact (c3_escape_handling ⟨1, 2, true, true⟩ '"' rfl).2.1 rfl

/-- Two newline-terminated converter records delivered by the stream as a
single chunk: the bytes of `{"a":1}\n{"b":2}\n`. -/
def chunkPair : List Char :=
  ['{', '"', 'a', '"', ':', '1', '}', '\n',
   '{', '"', 'b', '"', ':', '2', '}', '\n']

/-- C4 (code bug): `generateIterator` yields one record per stdout chunk,
merely trimmed, and never splits at newlines; when two newline-terminated
values arrive in one chunk, the single yielded record still embeds the
raw interior newline — two JSON values joined in one iteration step —
although the line protocol promises one complete JSON value per record
with no embedded raw newline. -/
theorem c4_chunk_joins_values :
    generateIterator [chunkPair] =
      [['{', '"', 'a', '"', ':', '1', '}', '\n',
        '{', '"', 'b', '"', ':', '2', '}']] ∧
      '\n' ∈ jsTrim chunkPair := by
  exact ⟨rfl, by decide⟩

/-- C5 (code bug): in Strict mode (`messy = false`) `binArgs` produces a
second, empty-string argument after the file path — the file path is not
the only argument passed — and the constructor's own spawn never passes
`--messy` even when Messy mode was selected. -/
theorem c5_extra_empty_arg (bp fp : List Char) :
    binArgs fp false = [fp, []] ∧
      binArgs fp false ≠ [fp] ∧
      (ctorSpawn bp fp true).args = [fp] := by
  refine ⟨rfl, ?_, rfl⟩
  intro h
  simpa [binArgs] using congrArg List.length h

/-- One converter record followed by process failure: the bytes of
`{"a":1}` and a newline as the stdout of a run that then exits nonzero. -/
def errChunk : List Char := ['{', '"', 'a', '"', ':', '1', '}', '\n']

/-- C6 counterexample: a converter run that fails (exit status 1) after
writing one record is delivered by the adapter exactly like the
successful run (exit status 0) with the same stdout — iteration ends with
the same record sequence and no error outcome, so at the adapter the
failing run is indistinguishable from a successful completion,
contradicting the claim's adapter half. -/
theorem c6_counterexample :
    adapterRun [errChunk] 1 = adapterRun [errChunk] 0 ∧
      adapterRun [errChunk] 1 = [['{', '"', 'a', '"', ':', '1', '}']] :=
  ⟨rfl, rfl⟩

/-- C6 amended: the engine surfaces every Strict-mode failure as a
terminal error result — whitespace-only input is the `EmptyInput` error
rather than zero records, and a trailing comma is an `UnexpectedByte`
error — and per the spec the CLI turns an error terminal into a nonzero
exit with a diagnostic; but the Node adapter's iteration delivers a
sequence that does not depend on the converter's exit status at all, so
an erroring run ends indistinguishably from a successful one there. -/
theorem c6_amended_error_surfacing :
    (∀ w : List Char, w.all isJsonWs = true →
      scanStrict w = .error .emptyInput) ∧
    scanStrict ('[' :: '1' :: ',' :: [']']) = .error .unexpectedByte ∧
    (∀ (chunks : List (List Char)) (code code' : Nat),
      adapterRun chunks code = adapterRun chunks code') := by
  refine ⟨?_, by rfl, fun _ _ _ => rfl⟩
  intro w hw
  have h := runFrom_skip_ws .awaitStart (by simp) w [] [] hw
  rw [List.append_nil] at h
  exact h

/-- Witness for the amended C6. -/
theorem c6_amended_witness :
    scanStrict [' ', '\t'] = .error .emptyInput ∧
      adapterRun [errChunk] 7 = adapterRun [errChunk] 0 := by
  exact ⟨c6_amended_error_surfacing.1 [' ', '\t'] (by decide),
    c6_amended_error_surfacing.2.2 [errChunk] 7 0⟩

/-- C7: records come out in exactly the source order — a Strict run emits
the list of source element texts itself, whose `i`-th entry is the `i`-th
source element — and the adapter's iterator maps the `i`-th stdout chunk
to the `i`-th delivered record, so neither stage of the pipeline
reorders; structurally, the driver's `inValue` state holds exactly one
partially scanned element, so at most one element is ever in flight. -/
theorem c7_ordering (w0 w1 : List Char) (items : List RItem)
    (hw0 : w0.all isJsonWs = true) (hw1 : w1.all isJsonWs = true)
    (hit : ∀ it ∈ items, OkItem it) :
    scanStrict (renderInput w0 items w1) = .ok (items.map RItem.val) ∧
      (∀ i : Nat, (items.map RItem.val)[i]? = (items[i]?).map RItem.val) ∧
      (∀ (chunks : List (List Char)) (i : Nat),
        (generateIterator chunks)[i]? = (chunks[i]?).map jsTrim) := by
  refine ⟨scanStrict_render w0 w1 items hw0 hw1 hit, ?_, ?_⟩
  · intro i; simp
  · intro chunks i; simp [generateIterator]

/-- Two elements for the ordering witness. -/
def witItems7 : List RItem := [⟨[], ['1'], []⟩, ⟨[' '], ['2', '3'], []⟩]

/-- Witness for C7 at a concrete two-element document and a concrete
two-chunk stream. -/
theorem c7_witness :
    scanStrict (renderInput [] witItems7 []) = .ok [['1'], ['2', '3']] ∧
      (generateIterator [['\n', 'a'], ['b', ' ']])[1]? = some ['b'] := by
  have h := c7_ordering [] [] witItems7 rfl rfl (by decide)
  constructor
  · exact h.1.trans (by rfl)
  · rw [h.2.2 [['\n', 'a'], ['b', ' ']] 1]; rfl

/-- C8: the synchronous-style pull interface (repeatedly awaiting
`next()`) and the `for await` interface (via `Symbol.asyncIterator`)
deliver exactly the same record sequence — `Symbol.asyncIterator` returns
the reader itself and `next()` delegates to the one generator created at
construction, so both drain that single generator over the child's line
stream. -/
theorem c8_interfaces_agree (bp fp : List Char) (m : Bool)
    (chunks : List (List Char)) :
    forAwaitAll (mkBinReader bp fp m chunks) =
        pullAll (mkBinReader bp fp m chunks) ∧
      pullAll (mkBinReader bp fp m chunks) = generateIterator chunks := by
  constructor
  · rfl
  · unfold pullAll
    rw [pullAllAux_take]
    simp [mkBinReader]

/-- C9: constructing a `BinReader` immediately spawns a converter child
with only the file path as argument (no `--messy` even when Messy mode
was selected); when iteration first runs a second, distinct child is
spawned; and the adapter's whole effect trace never reads the constructor
child's stdout and never kills any process. -/
theorem c9_ctor_spawn_frame (bp fp : List Char) (m : Bool) :
    (ctorSpawn bp fp m).args = [fp] ∧
      Effect.spawnProc (iterSpawn bp fp m) ∈ binReaderTrace bp fp m ∧
      iterSpawn bp fp m ≠ ctorSpawn bp fp m ∧
      Effect.readOut (ctorSpawn bp fp m) ∉ binReaderTrace bp fp m ∧
      ∀ cl : SpawnCall, Effect.killProc cl ∉ binReaderTrace bp fp m := by
  have hne : ctorSpawn bp fp m ≠ iterSpawn bp fp m := by
    intro h
    have hlen := congrArg (fun s => s.args.length) h
    simp [iterSpawn, ctorSpawn, binArgs] at hlen
  refine ⟨rfl, by simp [binReaderTrace], fun h => hne h.symm, ?_, ?_⟩
  · simp [binReaderTrace, hne]
  · intro cl
    simp [binReaderTrace]

/-- C10: every `Symbol.asyncIterator` call returns the reader itself; all
pulls consume the single generator created at construction — after `n`
pulls any consumer, including one that re-requests the iterator object,
sees that same generator advanced past its first `n` records, so each
record is delivered at most once and iteration can never restart from the
beginning — and every delivered record is trimmed: no leading or trailing
whitespace, in particular no terminating newline. -/
theorem c10_shared_iterator (bp fp : List Char) (m : Bool)
    (chunks : List (List Char)) :
    (mkBinReader bp fp m chunks).asyncIter = mkBinReader bp fp m chunks ∧
      (∀ n, pullAllAux n (mkBinReader bp fp m chunks) =
        (mkBinReader bp fp m chunks).iterator.take n) ∧
      (∀ n, ((afterPulls n (mkBinReader bp fp m chunks)).asyncIter).iterator =
        (mkBinReader bp fp m chunks).iterator.drop n) ∧
      ∀ v ∈ (mkBinReader bp fp m chunks).iterator,
        (∀ c, v.head? = some c → isJsWs c = false) ∧
        (∀ c, v.getLast? = some c → isJsWs c = false) := by
  refine ⟨rfl, fun n => pullAllAux_take n _, fun n => afterPulls_iter n _, ?_⟩
  intro v hv
  simp only [mkBinReader, generateIterator, List.mem_map] at hv
  obtain ⟨chunk, _, rfl⟩ := hv
  exact jsTrim_no_edge_ws chunk

/-- Witness for C10: after one pull of a one-chunk reader the shared
iterator is exhausted (iteration cannot restart), and the delivered
record's head is not whitespace. -/
theorem c10_witness :
    isJsWs 'x' = false ∧
      ((afterPulls 1 (mkBinReader [] [] false [['\n', 'x']])).asyncIter).iterator =
        [] := by
  have h := c10_shared_iterator [] [] false [['\n', 'x']]
  refine ⟨?_, ?_⟩
  · exact (h.2.2.2 ['x'] (by decide)).1 'x' rfl
  · rw [h.2.2.1 1]; rfl

end JsonLineage
